import Mathlib

/-!
Verification of the libfive feature-tracking and interval-evaluation core.

The definitions below are a shallow embedding of the repository sources:

* `Vec3`, `checkPlanar`, `isCompatible`, `Feature.push` embed
  `src/ao/src/eval/feature.cpp` (`Eigen::Vector3d` becomes a triple of
  real numbers; Eigen's `norm`, `normalized`, `dot` and `cross` become the
  corresponding real-valued operations; iterator-based loops become
  structural recursion over lists, with iterator identity rendered as
  positional indices).
* `Expr`, `peval`, `ieval`, `pushTape` model the interval evaluator of
  `src/libfive/include/libfive/eval/eval_interval.hpp`; the evaluator's
  implementation is not part of the sources, so these are modelled from
  the specification (see the doc comments).
* `EIGENVALUE_CUTOFF` embeds the constant of
  `src/libfive/include/libfive/render/brep/dc/dc_tree.hpp`.
-/

namespace Libfive

open scoped Classical

/-- Real 3-vector, embedding `Eigen::Vector3d`. -/
structure Vec3 where
  x : ℝ
  y : ℝ
  z : ℝ

noncomputable instance : DecidableEq Vec3 := fun _ _ => Classical.dec _

instance : Inhabited Vec3 := ⟨⟨0, 0, 0⟩⟩

/-- Dot product, embedding `Eigen::Vector3d::dot`. -/
def Vec3.dot (a b : Vec3) : ℝ :=
  a.x * b.x + a.y * b.y + a.z * b.z

/-- Cross product, embedding `Eigen::Vector3d::cross`. -/
def Vec3.cross (a b : Vec3) : Vec3 :=
  ⟨a.y * b.z - a.z * b.y, a.z * b.x - a.x * b.z, a.x * b.y - a.y * b.x⟩

/-- Euclidean norm, embedding `Eigen::Vector3d::norm`. -/
noncomputable def Vec3.norm (v : Vec3) : ℝ :=
  Real.sqrt (v.dot v)

/-- Componentwise division by the norm, embedding `Eigen::Vector3d::normalized`
(and the in-place `normalize`).  Division by zero is the Lean convention `0`;
the embedded code only ever compares the result against `1`, and both the NaN
produced by Eigen and the `0` produced here fail that comparison. -/
noncomputable def Vec3.normalized (v : Vec3) : Vec3 :=
  ⟨v.x / v.norm, v.y / v.norm, v.z / v.norm⟩

/-- Result type of `Feature::checkPlanar` (`feature.cpp`). -/
inductive PlanarResult where
  | PLANAR_FAIL : PlanarResult
  | PLANAR_SUCCESS : PlanarResult
  | NOT_PLANAR : PlanarResult
deriving DecidableEq

/-- The `while (++itr != epsilons.end())` loop of `Feature::checkPlanar`
(`feature.cpp` lines 152-164) followed by the final spread test (line 166).
`v` is the normalized query vector and `w` the normalized first cross
product `cross_`; `amin`, `amax` carry `angle_min` / `angle_max`. -/
noncomputable def planarLoop (v w : Vec3) : List Vec3 → ℝ → ℝ → PlanarResult
  | [], amin, amax =>
      if Real.pi < amax - amin then .PLANAR_FAIL else .PLANAR_SUCCESS
  | i :: rest, amin, amax =>
      if |Vec3.dot (Vec3.normalized (Vec3.cross i v)) w| ≠ 1 then .NOT_PLANAR
      else planarLoop v w rest
        (min (Real.arcsin (Vec3.norm (Vec3.cross i v))) amin)
        (max (Real.arcsin (Vec3.norm (Vec3.cross i v))) amax)

/-- Embedding of `Feature::checkPlanar` (`feature.cpp` lines 135-167).
The first list element plays the role of `epsilons.begin()`; its cross
product with the normalized `v` seeds `cross_`, `angle_min`, `angle_max`. -/
noncomputable def checkPlanar (epsilons : List Vec3) (v0 : Vec3) : PlanarResult :=
  if epsilons.length < 2 then .NOT_PLANAR
  else
    match epsilons with
    | [] => .NOT_PLANAR
    | i0 :: rest =>
      planarLoop (Vec3.normalized v0)
        (Vec3.normalized (Vec3.cross i0 (Vec3.normalized v0))) rest
        (min 0 (Real.arcsin (Vec3.norm (Vec3.cross i0 (Vec3.normalized v0)))))
        (max 0 (Real.arcsin (Vec3.norm (Vec3.cross i0 (Vec3.normalized v0)))))

/-- Inner `for (auto c=es.begin(); passed && c != es.end(); ++c)` loop of the
O(n^3) search of `Feature::isCompatible` (`feature.cpp` lines 59-82): walks
the dot products `norm.dot(*c)`, threading the running `sign`.  The early
exit on `passed == false` is equivalent to the `&&` chain used here. -/
noncomputable def signCheck : List ℝ → Int → Bool
  | [], _ => true
  | d :: rest, sign =>
      if d < 0 then decide (sign ≤ 0) && signCheck rest (-1)
      else if 0 < d then decide (0 ≤ sign) && signCheck rest 1
      else false

/-- Dot products `norm.dot(*c)` of all entries of `es` other than the
positions `a` and `b`, in list order (iterator identity `a == c || b == c`
becomes positional inequality). -/
noncomputable def othersFor (es : List Vec3) (n : Vec3) (a b : ℕ) : List ℝ :=
  ((List.range es.length).filter fun c => c ≠ a ∧ c ≠ b).map fun c =>
    Vec3.dot n (es.getD c default)

/-- The O(n^3) pair search of `Feature::isCompatible`
(`feature.cpp` lines 50-89) over the list `es = epsilons ++ [e]`:
some ordered pair of distinct positions `(a, b)` with `a·b ≠ -1` must have
every other entry on a single strict side of the plane spanned by the pair. -/
noncomputable def generalCase (es : List Vec3) : Bool :=
  (List.range es.length).any fun a =>
    (List.range es.length).any fun b =>
      if a = b then false
      else if Vec3.dot (es.getD a default) (es.getD b default) = -1 then false
      else signCheck (othersFor es ((es.getD a default).cross (es.getD b default)) a b) 0

/-- Body of `Feature::isCompatible` after the normalization prologue
(`feature.cpp` lines 16-89); `e` is already normalized. -/
noncomputable def isCompatibleAux (epsilons : List Vec3) (e : Vec3) : Bool :=
  if epsilons.length = 0 then true
  else if epsilons.length = 1 then decide (Vec3.dot e epsilons.headI ≠ -1)
  else if e ∈ epsilons then true
  else
    match checkPlanar epsilons e with
    | .PLANAR_FAIL => false
    | .PLANAR_SUCCESS => true
    | .NOT_PLANAR => generalCase (epsilons ++ [e])

/-- Embedding of `Feature::isCompatible` (`feature.cpp` lines 5-90):
reject the zero vector, normalize, then dispatch on the stored set. -/
noncomputable def isCompatible (epsilons : List Vec3) (e0 : Vec3) : Bool :=
  if Vec3.norm e0 = 0 then false
  else isCompatibleAux epsilons (Vec3.normalized e0)

/-- A `Choice{id, choice}` record (`feature.hpp`). -/
structure Choice where
  id : ℕ
  choice : Int

/-- Feature state: the `epsilons` list, the `choices` list and the
`_epsilons` map keyed by clause id (`feature.hpp`). -/
structure Feature where
  epsilons : List Vec3
  choices : List Choice
  emap : ℕ → Option Vec3

/-- The empty feature. -/
def Feature.empty : Feature :=
  ⟨[], [], fun _ => none⟩

/-- Embedding of `Feature::push` (`feature.cpp` lines 101-124): on a
compatible `e`, prepend the choice, record the raw `e` in `_epsilons`,
and append the normalized `e` to `epsilons` unless already present;
otherwise return `false` and leave the state unchanged. -/
noncomputable def Feature.push (f : Feature) (e : Vec3) (c : Choice) : Bool × Feature :=
  if isCompatible f.epsilons e then
    let f1 : Feature :=
      ⟨f.epsilons, c :: f.choices, fun i => if i = c.id then some e else f.emap i⟩
    if Vec3.normalized e ∈ f.epsilons then (true, f1)
    else (true, ⟨f.epsilons ++ [Vec3.normalized e], f1.choices, f1.emap⟩)
  else (false, f)

/-- Modelled from the spec: the expression trees walked by the interval
evaluator.  The implementation of `IntervalEvaluator` is not under the
sources (only `eval_interval.hpp` declares it), so the tape is modelled as
an expression tree over the coordinates with the full operation list of
specification section 4.1: elementwise `+ − × ÷`, unary `−`, `abs`,
`sqrt`, `square`, `exp`, `log`, `sin`, `cos`, `tan`, `asin`, `acos`,
`atan`, `atan2`, `pow`, the comparison (`less`, producing `[0,1]` when the
outcome is ambiguous), and the `min`/`max` combinators.  The exponent of
`pow` is a constant natural number, as in interval `pow(interval, int)`
applied to the constant operand. -/
inductive Expr where
  | X : Expr
  | Y : Expr
  | Z : Expr
  | const : ℝ → Expr
  | neg : Expr → Expr
  | add : Expr → Expr → Expr
  | sub : Expr → Expr → Expr
  | mul : Expr → Expr → Expr
  | div : Expr → Expr → Expr
  | eabs : Expr → Expr
  | square : Expr → Expr
  | sqrt : Expr → Expr
  | exp : Expr → Expr
  | log : Expr → Expr
  | sin : Expr → Expr
  | cos : Expr → Expr
  | tan : Expr → Expr
  | asin : Expr → Expr
  | acos : Expr → Expr
  | atan : Expr → Expr
  | atan2 : Expr → Expr → Expr
  | pow : Expr → ℕ → Expr
  | less : Expr → Expr → Expr
  | emin : Expr → Expr → Expr
  | emax : Expr → Expr → Expr

/-- Strict NaN propagation of a unary operation on values: an undefined
operand makes the result undefined. -/
noncomputable def lift1 (f : ℝ → ℝ) : Option ℝ → Option ℝ
  | some v => some (f v)
  | none => none

/-- Strict NaN propagation of a binary operation on values. -/
noncomputable def lift2 (f : ℝ → ℝ → ℝ) : Option ℝ → Option ℝ → Option ℝ
  | some v, some w => some (f v w)
  | _, _ => none

/-- Four-quadrant arctangent `atan2(y, x)` with the C convention:
`atan2(0, 0) = 0`, range contained in `[-π, π]`. -/
noncomputable def atan2R (y x : ℝ) : ℝ :=
  if 0 < x then Real.arctan (y / x)
  else if x < 0 ∧ 0 ≤ y then Real.arctan (y / x) + Real.pi
  else if x < 0 then Real.arctan (y / x) - Real.pi
  else if 0 < y then Real.pi / 2
  else if y < 0 then -(Real.pi / 2)
  else 0

/-- Modelled from the spec: pointwise evaluation of a tape at a point,
the reference semantics for the evaluator family.  A domain error
(division by zero, square root or logarithm outside the domain, `asin` /
`acos` outside `[-1, 1]`, `tan` at a pole) produces NaN, rendered as
`none`; NaN propagates strictly through every operation. -/
noncomputable def peval : Expr → Vec3 → Option ℝ
  | .X, p => some p.x
  | .Y, p => some p.y
  | .Z, p => some p.z
  | .const c, _ => some c
  | .neg a, p => lift1 (fun v => -v) (peval a p)
  | .add a b, p => lift2 (fun v w => v + w) (peval a p) (peval b p)
  | .sub a b, p => lift2 (fun v w => v - w) (peval a p) (peval b p)
  | .mul a b, p => lift2 (fun v w => v * w) (peval a p) (peval b p)
  | .div a b, p =>
      match peval a p, peval b p with
      | some v, some w => if w = 0 then none else some (v / w)
      | _, _ => none
  | .eabs a, p => lift1 (fun v => |v|) (peval a p)
  | .square a, p => lift1 (fun v => v * v) (peval a p)
  | .sqrt a, p =>
      match peval a p with
      | some v => if v < 0 then none else some (Real.sqrt v)
      | none => none
  | .exp a, p => lift1 Real.exp (peval a p)
  | .log a, p =>
      match peval a p with
      | some v => if v ≤ 0 then none else some (Real.log v)
      | none => none
  | .sin a, p => lift1 Real.sin (peval a p)
  | .cos a, p => lift1 Real.cos (peval a p)
  | .tan a, p =>
      match peval a p with
      | some v => if Real.cos v = 0 then none else some (Real.tan v)
      | none => none
  | .asin a, p =>
      match peval a p with
      | some v => if v < -1 ∨ 1 < v then none else some (Real.arcsin v)
      | none => none
  | .acos a, p =>
      match peval a p with
      | some v => if v < -1 ∨ 1 < v then none else some (Real.arccos v)
      | none => none
  | .atan a, p => lift1 Real.arctan (peval a p)
  | .atan2 y x, p => lift2 atan2R (peval y p) (peval x p)
  | .pow a n, p => lift1 (fun v => v ^ n) (peval a p)
  | .less a b, p => lift2 (fun v w => if v < w then 1 else 0) (peval a p) (peval b p)
  | .emin a b, p => lift2 (fun v w => min v w) (peval a p) (peval b p)
  | .emax a b, p => lift2 (fun v w => max v w) (peval a p) (peval b p)

/-- An interval `[lo, hi]` with its `maybe_nan` companion flag, modelling
`Interval::I` together with the `maybe_nan[clause]` vector of
`eval_interval.hpp`: the flag records that a NaN may be produced on the
box, and per specification section 7 a NaN-possible interval is treated by
downstream consumers as full-range. -/
structure Interval where
  lo : ℝ
  hi : ℝ
  nan : Bool

/-- Modelled from the spec: `IntervalEvaluator::eval(lower, upper)`,
outward-rounding interval arithmetic per opcode over the full operation
list of section 4.1.  `min`/`max` return `[min(aLo,bLo), min(aHi,bHi)]`
(resp. `max`) as the spec states; the elementwise arithmetic operations
use the standard exact interval extensions (division multiplies by the
reciprocal interval); the comparison produces `[0,1]` when the order is
ambiguous and a single value otherwise; `sin`, `cos` and `atan2` use
their global ranges, which outward-rounding soundness permits.  A domain
error (spec section 7: divisor straddling zero, `sqrt`/`log`/`asin`/
`acos` input leaving the domain, `tan` interval not inside one branch)
sets `maybe_nan`, and the interval of a NaN-possible clause counts as
full-range downstream. -/
noncomputable def ieval : Expr → Vec3 → Vec3 → Interval
  | .X, lower, upper => ⟨lower.x, upper.x, false⟩
  | .Y, lower, upper => ⟨lower.y, upper.y, false⟩
  | .Z, lower, upper => ⟨lower.z, upper.z, false⟩
  | .const c, _, _ => ⟨c, c, false⟩
  | .neg a, lower, upper =>
      let i := ieval a lower upper
      ⟨-i.hi, -i.lo, i.nan⟩
  | .add a b, lower, upper =>
      let i := ieval a lower upper
      let j := ieval b lower upper
      ⟨i.lo + j.lo, i.hi + j.hi, i.nan || j.nan⟩
  | .sub a b, lower, upper =>
      let i := ieval a lower upper
      let j := ieval b lower upper
      ⟨i.lo - j.hi, i.hi - j.lo, i.nan || j.nan⟩
  | .mul a b, lower, upper =>
      let i := ieval a lower upper
      let j := ieval b lower upper
      ⟨min (min (i.lo * j.lo) (i.lo * j.hi)) (min (i.hi * j.lo) (i.hi * j.hi)),
       max (max (i.lo * j.lo) (i.lo * j.hi)) (max (i.hi * j.lo) (i.hi * j.hi)),
       i.nan || j.nan⟩
  | .div a b, lower, upper =>
      let i := ieval a lower upper
      let j := ieval b lower upper
      ⟨min (min (i.lo * (1 / j.hi)) (i.lo * (1 / j.lo)))
           (min (i.hi * (1 / j.hi)) (i.hi * (1 / j.lo))),
       max (max (i.lo * (1 / j.hi)) (i.lo * (1 / j.lo)))
           (max (i.hi * (1 / j.hi)) (i.hi * (1 / j.lo))),
       i.nan || j.nan || decide (j.lo ≤ 0 ∧ 0 ≤ j.hi)⟩
  | .eabs a, lower, upper =>
      let i := ieval a lower upper
      ⟨if 0 ≤ i.lo then i.lo else if i.hi ≤ 0 then -i.hi else 0,
       max (-i.lo) i.hi, i.nan⟩
  | .square a, lower, upper =>
      let i := ieval a lower upper
      ⟨if 0 ≤ i.lo then i.lo * i.lo else if i.hi ≤ 0 then i.hi * i.hi else 0,
       max (i.lo * i.lo) (i.hi * i.hi), i.nan⟩
  | .sqrt a, lower, upper =>
      let i := ieval a lower upper
      ⟨Real.sqrt i.lo, Real.sqrt i.hi, i.nan || decide (i.lo < 0)⟩
  | .exp a, lower, upper =>
      let i := ieval a lower upper
      ⟨Real.exp i.lo, Real.exp i.hi, i.nan⟩
  | .log a, lower, upper =>
      let i := ieval a lower upper
      ⟨Real.log i.lo, Real.log i.hi, i.nan || decide (i.lo ≤ 0)⟩
  | .sin a, lower, upper =>
      let i := ieval a lower upper
      ⟨-1, 1, i.nan⟩
  | .cos a, lower, upper =>
      let i := ieval a lower upper
      ⟨-1, 1, i.nan⟩
  | .tan a, lower, upper =>
      let i := ieval a lower upper
      ⟨Real.tan i.lo, Real.tan i.hi,
       i.nan || decide (¬(-(Real.pi / 2) < i.lo ∧ i.hi < Real.pi / 2))⟩
  | .asin a, lower, upper =>
      let i := ieval a lower upper
      ⟨Real.arcsin i.lo, Real.arcsin i.hi,
       i.nan || decide (i.lo < -1 ∨ 1 < i.hi)⟩
  | .acos a, lower, upper =>
      let i := ieval a lower upper
      ⟨Real.arccos i.hi, Real.arccos i.lo,
       i.nan || decide (i.lo < -1 ∨ 1 < i.hi)⟩
  | .atan a, lower, upper =>
      let i := ieval a lower upper
      ⟨Real.arctan i.lo, Real.arctan i.hi, i.nan⟩
  | .atan2 y x, lower, upper =>
      let i := ieval y lower upper
      let j := ieval x lower upper
      ⟨-Real.pi, Real.pi, i.nan || j.nan⟩
  | .pow a n, lower, upper =>
      let i := ieval a lower upper
      ⟨if Even n ∧ i.lo ≤ 0 ∧ 0 ≤ i.hi then 0 else min (i.lo ^ n) (i.hi ^ n),
       max (i.lo ^ n) (i.hi ^ n), i.nan⟩
  | .less a b, lower, upper =>
      let i := ieval a lower upper
      let j := ieval b lower upper
      ⟨if i.hi < j.lo then 1 else 0, if j.hi ≤ i.lo then 0 else 1,
       i.nan || j.nan⟩
  | .emin a b, lower, upper =>
      let i := ieval a lower upper
      let j := ieval b lower upper
      ⟨min i.lo j.lo, min i.hi j.hi, i.nan || j.nan⟩
  | .emax a b, lower, upper =>
      let i := ieval a lower upper
      let j := ieval b lower upper
      ⟨max i.lo j.lo, max i.hi j.hi, i.nan || j.nan⟩

/-- Modelled from the spec: the tape shortening of
`IntervalEvaluator::intervalAndPush` — every `min`/`max` whose operand
intervals over the box are disjoint is replaced by a pass-through to the
dominant side, recursively.  Per specification section 7 a NaN-possible
interval is treated as full-range `(-∞, +∞)`, and a full-range interval
is disjoint from nothing, so a clause with a NaN-possible operand is
never shortened. -/
noncomputable def pushTape (lower upper : Vec3) : Expr → Expr
  | .emin a b =>
      if (ieval a lower upper).nan = false ∧ (ieval b lower upper).nan = false ∧
          (ieval a lower upper).hi < (ieval b lower upper).lo then
        pushTape lower upper a
      else if (ieval a lower upper).nan = false ∧ (ieval b lower upper).nan = false ∧
          (ieval b lower upper).hi < (ieval a lower upper).lo then
        pushTape lower upper b
      else .emin (pushTape lower upper a) (pushTape lower upper b)
  | .emax a b =>
      if (ieval a lower upper).nan = false ∧ (ieval b lower upper).nan = false ∧
          (ieval a lower upper).hi < (ieval b lower upper).lo then
        pushTape lower upper b
      else if (ieval a lower upper).nan = false ∧ (ieval b lower upper).nan = false ∧
          (ieval b lower upper).hi < (ieval a lower upper).lo then
        pushTape lower upper a
      else .emax (pushTape lower upper a) (pushTape lower upper b)
  | .neg a => .neg (pushTape lower upper a)
  | .add a b => .add (pushTape lower upper a) (pushTape lower upper b)
  | .sub a b => .sub (pushTape lower upper a) (pushTape lower upper b)
  | .mul a b => .mul (pushTape lower upper a) (pushTape lower upper b)
  | .div a b => .div (pushTape lower upper a) (pushTape lower upper b)
  | .eabs a => .eabs (pushTape lower upper a)
  | .square a => .square (pushTape lower upper a)
  | .sqrt a => .sqrt (pushTape lower upper a)
  | .exp a => .exp (pushTape lower upper a)
  | .log a => .log (pushTape lower upper a)
  | .sin a => .sin (pushTape lower upper a)
  | .cos a => .cos (pushTape lower upper a)
  | .tan a => .tan (pushTape lower upper a)
  | .asin a => .asin (pushTape lower upper a)
  | .acos a => .acos (pushTape lower upper a)
  | .atan a => .atan (pushTape lower upper a)
  | .atan2 y x => .atan2 (pushTape lower upper y) (pushTape lower upper x)
  | .pow a n => .pow (pushTape lower upper a) n
  | .less a b => .less (pushTape lower upper a) (pushTape lower upper b)
  | .X => .X
  | .Y => .Y
  | .Z => .Z
  | .const c => .const c

/-- Membership of a point in the axis-aligned box `[lower, upper]`. -/
def inBox (lower upper p : Vec3) : Prop :=
  lower.x ≤ p.x ∧ p.x ≤ upper.x ∧ lower.y ≤ p.y ∧ p.y ≤ upper.y ∧
    lower.z ≤ p.z ∧ p.z ≤ upper.z

/-- Embedding of `DCTree::EIGENVALUE_CUTOFF`
(`dc_tree.hpp`: `constexpr static double EIGENVALUE_CUTOFF=0.1f;`).
The literal `0.1f` is IEEE-754 single precision: `0.1` rounds to the
24-bit significand value `13421773 * 2^(-27)`, and the conversion to
`double` preserves that value exactly. -/
noncomputable def EIGENVALUE_CUTOFF : ℝ :=
  13421773 / 134217728

lemma vnorm_nonneg (v : Vec3) : 0 ≤ Vec3.norm v :=
  Real.sqrt_nonneg _

lemma norm_eq_zero_iff (v : Vec3) : Vec3.norm v = 0 ↔ v = ⟨0, 0, 0⟩ := by
  obtain ⟨a, b, c⟩ := v
  unfold Vec3.norm Vec3.dot
  simp only [Real.sqrt_eq_zero']
  constructor
  · intro h
    have ha := mul_self_nonneg a
    have hb := mul_self_nonneg b
    have hc := mul_self_nonneg c
    have ha0 : a = 0 := mul_self_eq_zero.mp (le_antisymm (by linarith) ha)
    have hb0 : b = 0 := mul_self_eq_zero.mp (le_antisymm (by linarith) hb)
    have hc0 : c = 0 := mul_self_eq_zero.mp (le_antisymm (by linarith) hc)
    simp [ha0, hb0, hc0]
  · intro h
    simp only [Vec3.mk.injEq] at h
    obtain ⟨rfl, rfl, rfl⟩ := h
    norm_num

lemma planarLoop_ne_fail (v w : Vec3) :
    ∀ (L : List Vec3) (amin amax : ℝ), 0 ≤ amin → amax ≤ Real.pi / 2 →
      planarLoop v w L amin amax ≠ .PLANAR_FAIL := by
  intro L
  induction L with
  | nil =>
      intro amin amax h1 h2
      unfold planarLoop
      rw [if_neg (by simp only [not_lt]; linarith [Real.pi_pos])]
      simp
  | cons i rest ih =>
      intro amin amax h1 h2
      unfold planarLoop
      by_cases hcol : |Vec3.dot (Vec3.normalized (Vec3.cross i v)) w| ≠ 1
      · rw [if_pos hcol]; simp
      · rw [if_neg hcol]
        exact ih _ _ (le_min (Real.arcsin_nonneg.mpr (vnorm_nonneg _)) h1)
          (max_le (Real.arcsin_le_pi_div_two _) h2)

lemma checkPlanar_ne_fail (epsilons : List Vec3) (v0 : Vec3) :
    checkPlanar epsilons v0 ≠ .PLANAR_FAIL := by
  unfold checkPlanar
  by_cases h : epsilons.length < 2
  · rw [if_pos h]; simp
  · rw [if_neg h]
    cases epsilons with
    | nil => simp
    | cons i0 rest =>
        exact planarLoop_ne_fail _ _ _ _ _
          (le_min le_rfl (Real.arcsin_nonneg.mpr (vnorm_nonneg _)))
          (max_le (by positivity) (Real.arcsin_le_pi_div_two _))

/-- C10: for every feature state and every candidate vector, `checkPlanar`
never returns `PLANAR_FAIL`: each angle is `asin` of a cross-product norm
and hence lies in `[0, π/2]`, so the spread `angle_max - angle_min` stays
at most `π/2` and the strict comparison with `π` never triggers; the
planar fast path can accept or defer, but never reject. -/
theorem checkPlanar_never_fails :
    ∀ (epsilons : List Vec3) (v : Vec3), checkPlanar epsilons v ≠ .PLANAR_FAIL :=
  fun epsilons v => checkPlanar_ne_fail epsilons v

/-- C8: `isCompatible` rejects the zero vector regardless of the stored
epsilons; with an empty epsilon set it accepts every nonzero vector; with
exactly one stored epsilon it accepts exactly when the normalized
candidate has dot product different from `-1` with that epsilon. -/
theorem isCompatible_base_cases :
    (∀ epsilons : List Vec3, isCompatible epsilons ⟨0, 0, 0⟩ = false) ∧
    (∀ e : Vec3, e ≠ ⟨0, 0, 0⟩ → isCompatible [] e = true) ∧
    (∀ v e : Vec3, e ≠ ⟨0, 0, 0⟩ →
      (isCompatible [v] e = true ↔ Vec3.dot (Vec3.normalized e) v ≠ -1)) := by
  refine ⟨fun epsilons => ?_, fun e he => ?_, fun v e he => ?_⟩
  · unfold isCompatible
    rw [if_pos ((norm_eq_zero_iff _).mpr rfl)]
  · unfold isCompatible
    rw [if_neg (fun h => he ((norm_eq_zero_iff _).mp h))]
    unfold isCompatibleAux
    simp
  · unfold isCompatible
    rw [if_neg (fun h => he ((norm_eq_zero_iff _).mp h))]
    unfold isCompatibleAux
    simp

/-- C8 witness: the three cases at concrete inputs. -/
theorem isCompatible_base_cases_witness :
    isCompatible [⟨1, 0, 0⟩] ⟨0, 0, 0⟩ = false ∧
    isCompatible [] ⟨1, 0, 0⟩ = true ∧
    isCompatible [⟨0, 1, 0⟩] ⟨1, 0, 0⟩ = true :=
  ⟨isCompatible_base_cases.1 [⟨1, 0, 0⟩],
   isCompatible_base_cases.2.1 ⟨1, 0, 0⟩ (by norm_num [Vec3.mk.injEq]),
   (isCompatible_base_cases.2.2 ⟨0, 1, 0⟩ ⟨1, 0, 0⟩
      (by norm_num [Vec3.mk.injEq])).mpr
      (by norm_num [Vec3.normalized, Vec3.dot])⟩

/-- C7: with at least two stored epsilons, a candidate whose normalization
is already present is accepted outright: the planar fast path and the
general pair search play no part in the verdict. -/
theorem isCompatible_member_true :
    ∀ (epsilons : List Vec3) (e : Vec3), 2 ≤ epsilons.length →
      Vec3.norm e ≠ 0 → Vec3.normalized e ∈ epsilons →
      isCompatible epsilons e = true := by
  intro eps e hlen hn hm
  unfold isCompatible
  rw [if_neg hn]
  unfold isCompatibleAux
  rw [if_neg (by omega), if_neg (by omega), if_pos hm]

/-- C7 witness: `(2,0,0)` normalizes to the stored `(1,0,0)`. -/
theorem isCompatible_member_true_witness :
    isCompatible [⟨1, 0, 0⟩, ⟨0, 1, 0⟩] ⟨2, 0, 0⟩ = true := by
  have h4 : Vec3.norm ⟨2, 0, 0⟩ = 2 := by
    unfold Vec3.norm Vec3.dot
    rw [show (2 : ℝ) * 2 + 0 * 0 + 0 * 0 = 2 ^ 2 by norm_num,
      Real.sqrt_sq (by norm_num : (0 : ℝ) ≤ 2)]
  have hnz : Vec3.normalized ⟨2, 0, 0⟩ = ⟨1, 0, 0⟩ := by
    unfold Vec3.normalized
    rw [h4]
    norm_num [Vec3.mk.injEq]
  exact isCompatible_member_true [⟨1, 0, 0⟩, ⟨0, 1, 0⟩] ⟨2, 0, 0⟩ (by simp)
    (by rw [h4]; norm_num) (by rw [hnz]; simp)

/-- C3: `push` prepends the choice and appends the normalized vector
(only when not already stored) exactly when `isCompatible` accepts; on an
incompatible vector it returns `false` and leaves the state unchanged. -/
theorem push_spec :
    ∀ (f : Feature) (e : Vec3) (c : Choice),
      (isCompatible f.epsilons e = true →
        (f.push e c).1 = true ∧
        (f.push e c).2.choices = c :: f.choices ∧
        (Vec3.normalized e ∈ f.epsilons → (f.push e c).2.epsilons = f.epsilons) ∧
        (Vec3.normalized e ∉ f.epsilons →
          (f.push e c).2.epsilons = f.epsilons ++ [Vec3.normalized e])) ∧
      (isCompatible f.epsilons e = false →
        (f.push e c).1 = false ∧ (f.push e c).2 = f) := by
  intro f e c
  constructor
  · intro h
    by_cases hm : Vec3.normalized e ∈ f.epsilons
    · simp [Feature.push, h, hm]
    · simp [Feature.push, h, hm]
  · intro h
    simp [Feature.push, h]

/-- C3 witness: pushing `(1,0,0)` onto the empty feature succeeds and
stores the choice and the normalized vector. -/
theorem push_spec_witness :
    isCompatible Feature.empty.epsilons ⟨1, 0, 0⟩ = true ∧
    (Feature.empty.push ⟨1, 0, 0⟩ ⟨0, 0⟩).1 = true ∧
    (Feature.empty.push ⟨1, 0, 0⟩ ⟨0, 0⟩).2.choices = [⟨0, 0⟩] ∧
    (Feature.empty.push ⟨1, 0, 0⟩ ⟨0, 0⟩).2.epsilons = [Vec3.normalized ⟨1, 0, 0⟩] := by
  have hc : isCompatible Feature.empty.epsilons ⟨1, 0, 0⟩ = true := by
    unfold Feature.empty isCompatible
    rw [if_neg (by simp only [norm_eq_zero_iff, Vec3.mk.injEq]; norm_num)]
    unfold isCompatibleAux
    simp
  have h := (push_spec Feature.empty ⟨1, 0, 0⟩ ⟨0, 0⟩).1 hc
  exact ⟨hc, h.1, h.2.1, h.2.2.2 (by simp [Feature.empty])⟩

lemma norm_eval (a b c s : ℝ) (hs : 0 ≤ s) (h : a * a + b * b + c * c = s ^ 2) :
    Vec3.norm ⟨a, b, c⟩ = s := by
  have h0 : Vec3.norm ⟨a, b, c⟩ = Real.sqrt (a * a + b * b + c * c) := rfl
  rw [h0, h, Real.sqrt_sq hs]

lemma normalized_eval (a b c s : ℝ) (hs : Vec3.norm ⟨a, b, c⟩ = s) :
    Vec3.normalized ⟨a, b, c⟩ = ⟨a / s, b / s, c / s⟩ := by
  unfold Vec3.normalized
  rw [hs]

lemma normalized_of_norm_one {v : Vec3} (h : Vec3.norm v = 1) :
    Vec3.normalized v = v := by
  obtain ⟨a, b, c⟩ := v
  rw [normalized_eval a b c 1 h]
  simp

lemma cross_eval (a1 a2 a3 b1 b2 b3 : ℝ) :
    Vec3.cross ⟨a1, a2, a3⟩ ⟨b1, b2, b3⟩ =
      ⟨a2 * b3 - a3 * b2, a3 * b1 - a1 * b3, a1 * b2 - a2 * b1⟩ := rfl

lemma dot_eval (a1 a2 a3 b1 b2 b3 : ℝ) :
    Vec3.dot ⟨a1, a2, a3⟩ ⟨b1, b2, b3⟩ = a1 * b1 + a2 * b2 + a3 * b3 := rfl

lemma planarLoop_nil_success (v w : Vec3) (amin amax : ℝ)
    (h1 : 0 ≤ amin) (h2 : amax ≤ Real.pi / 2) :
    planarLoop v w [] amin amax = .PLANAR_SUCCESS := by
  unfold planarLoop
  rw [if_neg (by simp only [not_lt]; linarith [Real.pi_pos])]

lemma planarLoop_cons_step (v w i : Vec3) (rest : List Vec3) (amin amax : ℝ)
    (h : |Vec3.dot (Vec3.normalized (Vec3.cross i v)) w| = 1) :
    planarLoop v w (i :: rest) amin amax =
      planarLoop v w rest
        (min (Real.arcsin (Vec3.norm (Vec3.cross i v))) amin)
        (max (Real.arcsin (Vec3.norm (Vec3.cross i v))) amax) := by
  have h0 : planarLoop v w (i :: rest) amin amax =
      if |Vec3.dot (Vec3.normalized (Vec3.cross i v)) w| ≠ 1 then .NOT_PLANAR
      else planarLoop v w rest
        (min (Real.arcsin (Vec3.norm (Vec3.cross i v))) amin)
        (max (Real.arcsin (Vec3.norm (Vec3.cross i v))) amax) := rfl
  rw [h0, if_neg (by simp [h])]

lemma checkPlanar_pair_success (i0 i1 v0 : Vec3)
    (h : |Vec3.dot (Vec3.normalized (Vec3.cross i1 (Vec3.normalized v0)))
           (Vec3.normalized (Vec3.cross i0 (Vec3.normalized v0)))| = 1) :
    checkPlanar [i0, i1] v0 = .PLANAR_SUCCESS := by
  have hstep : checkPlanar [i0, i1] v0 =
      planarLoop (Vec3.normalized v0)
        (Vec3.normalized (Vec3.cross i0 (Vec3.normalized v0))) [i1]
        (min 0 (Real.arcsin (Vec3.norm (Vec3.cross i0 (Vec3.normalized v0)))))
        (max 0 (Real.arcsin (Vec3.norm (Vec3.cross i0 (Vec3.normalized v0))))) := by
    unfold checkPlanar
    rw [if_neg (by simp)]
  rw [hstep, planarLoop_cons_step _ _ _ _ _ _ h]
  exact planarLoop_nil_success _ _ _ _
    (le_min (Real.arcsin_nonneg.mpr (vnorm_nonneg _))
      (le_min le_rfl (Real.arcsin_nonneg.mpr (vnorm_nonneg _))))
    (max_le (Real.arcsin_le_pi_div_two _)
      (max_le (by positivity) (Real.arcsin_le_pi_div_two _)))

lemma isCompatible_planar_two (i0 i1 e0 : Vec3) (hn : Vec3.norm e0 ≠ 0)
    (hm : Vec3.normalized e0 ∉ [i0, i1])
    (hp : checkPlanar [i0, i1] (Vec3.normalized e0) = .PLANAR_SUCCESS) :
    isCompatible [i0, i1] e0 = true := by
  unfold isCompatible
  rw [if_neg hn]
  unfold isCompatibleAux
  rw [if_neg (by simp), if_neg (by simp), if_neg hm, hp]

lemma isCompatible_one_eval (v e0 : Vec3) (hn : Vec3.norm e0 ≠ 0) :
    isCompatible [v] e0 = decide (Vec3.dot (Vec3.normalized e0) v ≠ -1) := by
  unfold isCompatible
  rw [if_neg hn]
  unfold isCompatibleAux
  simp

/-- C6: subset monotonicity fails on the code.  The state holding the
antipodal pair `(1,0,0)`, `(-1,0,0)` judges the candidate `(0,1,0)`
compatible (the planar fast path never inspects antipodal pairs already
stored), yet both splits of the subset `{(1,0,0), (-1,0,0)}` are judged
incompatible by the singleton rule. -/
theorem subset_monotonicity_fails :
    isCompatible [⟨1, 0, 0⟩, ⟨-1, 0, 0⟩] ⟨0, 1, 0⟩ = true ∧
    isCompatible [⟨1, 0, 0⟩] ⟨-1, 0, 0⟩ = false ∧
    isCompatible [⟨-1, 0, 0⟩] ⟨1, 0, 0⟩ = false := by
  have h1 : Vec3.norm ⟨0, 1, 0⟩ = 1 := norm_eval 0 1 0 1 (by norm_num) (by norm_num)
  have hne : Vec3.normalized ⟨0, 1, 0⟩ = ⟨0, 1, 0⟩ := normalized_of_norm_one h1
  have hm1 : Vec3.norm ⟨-1, 0, 0⟩ = 1 := norm_eval (-1) 0 0 1 (by norm_num) (by norm_num)
  have hmne : Vec3.normalized ⟨-1, 0, 0⟩ = ⟨-1, 0, 0⟩ := normalized_of_norm_one hm1
  have hp1 : Vec3.norm ⟨1, 0, 0⟩ = 1 := norm_eval 1 0 0 1 (by norm_num) (by norm_num)
  have hpne : Vec3.normalized ⟨1, 0, 0⟩ = ⟨1, 0, 0⟩ := normalized_of_norm_one hp1
  refine ⟨?_, ?_, ?_⟩
  · have hcross0 : Vec3.cross ⟨1, 0, 0⟩ ⟨0, 1, 0⟩ = ⟨0, 0, 1⟩ := by
      rw [cross_eval]
      norm_num
    have hcross1 : Vec3.cross ⟨-1, 0, 0⟩ ⟨0, 1, 0⟩ = ⟨0, 0, -1⟩ := by
      rw [cross_eval]
      norm_num
    have hnn0 : Vec3.normalized ⟨0, 0, (1 : ℝ)⟩ = ⟨0, 0, 1⟩ :=
      normalized_of_norm_one (norm_eval 0 0 1 1 (by norm_num) (by norm_num))
    have hnn1 : Vec3.normalized ⟨0, 0, (-1 : ℝ)⟩ = ⟨0, 0, -1⟩ :=
      normalized_of_norm_one (norm_eval 0 0 (-1) 1 (by norm_num) (by norm_num))
    have habs : |Vec3.dot
        (Vec3.normalized (Vec3.cross ⟨-1, 0, 0⟩ (Vec3.normalized ⟨0, 1, 0⟩)))
        (Vec3.normalized (Vec3.cross ⟨1, 0, 0⟩ (Vec3.normalized ⟨0, 1, 0⟩)))| = 1 := by
      rw [hne, hcross1, hcross0, hnn1, hnn0, dot_eval]
      norm_num
    refine isCompatible_planar_two _ _ _ (by rw [h1]; norm_num) ?_ ?_
    · rw [hne]
      norm_num [Vec3.mk.injEq]
    · rw [hne]
      exact checkPlanar_pair_success _ _ _ habs
  · rw [isCompatible_one_eval _ _ (by rw [hm1]; norm_num), hmne, dot_eval]
    norm_num
  · rw [isCompatible_one_eval _ _ (by rw [hp1]; norm_num), hpne, dot_eval]
    norm_num

/-- C1: the planar fast path accepts coplanar sets of angular spread at
least `π`.  With epsilons `(1,0,0)`, `(-3/5,4/5,0)` and candidate
`(-3/5,-4/5,0)` (directions at 0°, ≈126.87° and ≈233.13°, all pairwise
cross products colinear), the code returns `true` because the folded
angles `asin |εᵢ × e|` give a computed spread below `π`, although no open
half-space contains the three directions (second conjunct), so the
claimed `max − min < π` criterion demands rejection. -/
theorem planar_spread_bug :
    isCompatible [⟨1, 0, 0⟩, ⟨-3/5, 4/5, 0⟩] ⟨-3/5, -4/5, 0⟩ = true ∧
    ¬∃ n : Vec3, 0 < Vec3.dot n ⟨1, 0, 0⟩ ∧ 0 < Vec3.dot n ⟨-3/5, 4/5, 0⟩ ∧
      0 < Vec3.dot n ⟨-3/5, -4/5, 0⟩ := by
  constructor
  · have h1 : Vec3.norm ⟨-3/5, -4/5, 0⟩ = 1 :=
      norm_eval (-3/5) (-4/5) 0 1 (by norm_num) (by norm_num)
    have hne : Vec3.normalized ⟨-3/5, -4/5, 0⟩ = ⟨-3/5, -4/5, 0⟩ :=
      normalized_of_norm_one h1
    have hcross0 : Vec3.cross ⟨1, 0, 0⟩ ⟨-3/5, -4/5, 0⟩ = ⟨0, 0, -4/5⟩ := by
      rw [cross_eval]
      norm_num
    have hcross1 : Vec3.cross ⟨-3/5, 4/5, 0⟩ ⟨-3/5, -4/5, 0⟩ = ⟨0, 0, 24/25⟩ := by
      rw [cross_eval]
      norm_num
    have hnn0 : Vec3.normalized ⟨0, 0, (-4/5 : ℝ)⟩ = ⟨0, 0, -1⟩ := by
      rw [normalized_eval 0 0 (-4/5) (4/5)
        (norm_eval 0 0 (-4/5) (4/5) (by norm_num) (by norm_num))]
      norm_num
    have hnn1 : Vec3.normalized ⟨0, 0, (24/25 : ℝ)⟩ = ⟨0, 0, 1⟩ := by
      rw [normalized_eval 0 0 (24/25) (24/25)
        (norm_eval 0 0 (24/25) (24/25) (by norm_num) (by norm_num))]
      norm_num
    have habs : |Vec3.dot
        (Vec3.normalized (Vec3.cross ⟨-3/5, 4/5, 0⟩
          (Vec3.normalized ⟨-3/5, -4/5, 0⟩)))
        (Vec3.normalized (Vec3.cross ⟨1, 0, 0⟩
          (Vec3.normalized ⟨-3/5, -4/5, 0⟩)))| = 1 := by
      rw [hne, hcross1, hcross0, hnn1, hnn0, dot_eval]
      norm_num
    refine isCompatible_planar_two _ _ _ (by rw [h1]; norm_num) ?_ ?_
    · rw [hne]
      norm_num [Vec3.mk.injEq]
    · rw [hne]
      exact checkPlanar_pair_success _ _ _ habs
  · rintro ⟨n, hn1, hn2, hn3⟩
    rw [dot_eval] at hn1 hn2 hn3
    obtain ⟨nx, ny, nz⟩ := n
    simp only at hn1 hn2 hn3
    linarith

/-- C2: the claimed feature test fails on the code.  With epsilons
`(1,0,0)`, `(0,1,0)` the candidate `(-1,-1,0)/√2` is supposed to be
incompatible (no open half-space contains the three directions — second
conjunct), but the planar fast path accepts it before the general
pair search is ever reached, so `isCompatible` returns `true`. -/
theorem feature_pair_test_bug :
    isCompatible [⟨1, 0, 0⟩, ⟨0, 1, 0⟩]
      ⟨-(Real.sqrt 2)/2, -(Real.sqrt 2)/2, 0⟩ = true ∧
    ¬∃ n : Vec3, 0 < Vec3.dot n ⟨1, 0, 0⟩ ∧ 0 < Vec3.dot n ⟨0, 1, 0⟩ ∧
      0 < Vec3.dot n ⟨-(Real.sqrt 2)/2, -(Real.sqrt 2)/2, 0⟩ := by
  have hs2 : Real.sqrt 2 * Real.sqrt 2 = 2 := Real.mul_self_sqrt (by norm_num)
  have hs2pos : 0 < Real.sqrt 2 := Real.sqrt_pos.mpr (by norm_num)
  constructor
  · have h1 : Vec3.norm ⟨-(Real.sqrt 2)/2, -(Real.sqrt 2)/2, 0⟩ = 1 :=
      norm_eval _ _ _ 1 (by norm_num) (by nlinarith)
    have hne : Vec3.normalized ⟨-(Real.sqrt 2)/2, -(Real.sqrt 2)/2, 0⟩ =
        ⟨-(Real.sqrt 2)/2, -(Real.sqrt 2)/2, 0⟩ := normalized_of_norm_one h1
    have hcross0 : Vec3.cross ⟨1, 0, 0⟩ ⟨-(Real.sqrt 2)/2, -(Real.sqrt 2)/2, 0⟩ =
        ⟨0, 0, -(Real.sqrt 2)/2⟩ := by
      rw [cross_eval, Vec3.mk.injEq]
      refine ⟨by ring, by ring, by ring⟩
    have hcross1 : Vec3.cross ⟨0, 1, 0⟩ ⟨-(Real.sqrt 2)/2, -(Real.sqrt 2)/2, 0⟩ =
        ⟨0, 0, (Real.sqrt 2)/2⟩ := by
      rw [cross_eval, Vec3.mk.injEq]
      refine ⟨by ring, by ring, by ring⟩
    have hhalf : Vec3.norm ⟨0, 0, (Real.sqrt 2)/2⟩ = (Real.sqrt 2)/2 :=
      norm_eval _ _ _ _ (by positivity) (by nlinarith)
    have hhalfneg : Vec3.norm ⟨0, 0, -(Real.sqrt 2)/2⟩ = (Real.sqrt 2)/2 :=
      norm_eval _ _ _ _ (by positivity) (by nlinarith)
    have hnn0 : Vec3.normalized ⟨0, 0, -(Real.sqrt 2)/2⟩ = ⟨0, 0, -1⟩ := by
      rw [normalized_eval _ _ _ _ hhalfneg]
      rw [Vec3.mk.injEq]
      refine ⟨by norm_num, by norm_num, ?_⟩
      rw [neg_div, neg_div, div_self (show (Real.sqrt 2)/2 ≠ 0 by positivity)]
    have hnn1 : Vec3.normalized ⟨0, 0, (Real.sqrt 2)/2⟩ = ⟨0, 0, 1⟩ := by
      rw [normalized_eval _ _ _ _ hhalf]
      rw [Vec3.mk.injEq]
      refine ⟨by norm_num, by norm_num, ?_⟩
      rw [div_self (show (Real.sqrt 2)/2 ≠ 0 by positivity)]
    have habs : |Vec3.dot
        (Vec3.normalized (Vec3.cross ⟨0, 1, 0⟩
          (Vec3.normalized ⟨-(Real.sqrt 2)/2, -(Real.sqrt 2)/2, 0⟩)))
        (Vec3.normalized (Vec3.cross ⟨1, 0, 0⟩
          (Vec3.normalized ⟨-(Real.sqrt 2)/2, -(Real.sqrt 2)/2, 0⟩)))| = 1 := by
      rw [hne, hcross1, hcross0, hnn1, hnn0, dot_eval]
      norm_num
    refine isCompatible_planar_two _ _ _ (by rw [h1]; norm_num) ?_ ?_
    · rw [hne]
      simp only [List.mem_cons, List.mem_singleton, List.not_mem_nil, or_false,
        Vec3.mk.injEq, not_or, not_and]
      constructor
      · intro h
        nlinarith
      · intro h
        nlinarith
    · rw [hne]
      exact checkPlanar_pair_success _ _ _ habs
  · rintro ⟨n, hn1, hn2, hn3⟩
    rw [dot_eval] at hn1 hn2 hn3
    obtain ⟨nx, ny, nz⟩ := n
    simp only at hn1 hn2 hn3
    nlinarith

lemma mul_mem_corners {a1 a2 b1 b2 x y : ℝ}
    (hx1 : a1 ≤ x) (hx2 : x ≤ a2) (hy1 : b1 ≤ y) (hy2 : y ≤ b2) :
    min (min (a1 * b1) (a1 * b2)) (min (a2 * b1) (a2 * b2)) ≤ x * y ∧
      x * y ≤ max (max (a1 * b1) (a1 * b2)) (max (a2 * b1) (a2 * b2)) := by
  constructor
  · rcases le_total 0 y with hy | hy
    · have h1 : a1 * y ≤ x * y := mul_le_mul_of_nonneg_right hx1 hy
      have h2 : min (a1 * b1) (a1 * b2) ≤ a1 * y := by
        rcases le_total 0 a1 with ha | ha
        · exact le_trans (min_le_left _ _) (mul_le_mul_of_nonneg_left hy1 ha)
        · exact le_trans (min_le_right _ _) (mul_le_mul_of_nonpos_left hy2 ha)
      exact le_trans (min_le_left _ _) (le_trans h2 h1)
    · have h1 : a2 * y ≤ x * y := mul_le_mul_of_nonpos_right hx2 hy
      have h2 : min (a2 * b1) (a2 * b2) ≤ a2 * y := by
        rcases le_total 0 a2 with ha | ha
        · exact le_trans (min_le_left _ _) (mul_le_mul_of_nonneg_left hy1 ha)
        · exact le_trans (min_le_right _ _) (mul_le_mul_of_nonpos_left hy2 ha)
      exact le_trans (min_le_right _ _) (le_trans h2 h1)
  · rcases le_total 0 y with hy | hy
    · have h1 : x * y ≤ a2 * y := mul_le_mul_of_nonneg_right hx2 hy
      have h2 : a2 * y ≤ max (a2 * b1) (a2 * b2) := by
        rcases le_total 0 a2 with ha | ha
        · exact le_trans (mul_le_mul_of_nonneg_left hy2 ha) (le_max_right _ _)
        · exact le_trans (mul_le_mul_of_nonpos_left hy1 ha) (le_max_left _ _)
      exact le_trans (le_trans h1 h2) (le_max_right _ _)
    · have h1 : x * y ≤ a1 * y := mul_le_mul_of_nonpos_right hx1 hy
      have h2 : a1 * y ≤ max (a1 * b1) (a1 * b2) := by
        rcases le_total 0 a1 with ha | ha
        · exact le_trans (mul_le_mul_of_nonneg_left hy2 ha) (le_max_right _ _)
        · exact le_trans (mul_le_mul_of_nonpos_left hy1 ha) (le_max_left _ _)
      exact le_trans (le_trans h1 h2) (le_max_left _ _)

lemma inv_bounds {l h x : ℝ} (h1 : l ≤ x) (h2 : x ≤ h) (hs : 0 < l ∨ h < 0) :
    1 / h ≤ 1 / x ∧ 1 / x ≤ 1 / l := by
  rcases hs with hl | hh
  · have hx : 0 < x := lt_of_lt_of_le hl h1
    exact ⟨one_div_le_one_div_of_le hx h2, one_div_le_one_div_of_le hl h1⟩
  · have hx : x < 0 := lt_of_le_of_lt h2 hh
    exact ⟨one_div_le_one_div_of_neg_of_le hh h2, one_div_le_one_div_of_neg_of_le hx h1⟩

lemma atan2R_bounds (y x : ℝ) : -Real.pi ≤ atan2R y x ∧ atan2R y x ≤ Real.pi := by
  have hpi := Real.pi_pos
  have h1 := Real.arctan_lt_pi_div_two (y / x)
  have h2 := Real.neg_pi_div_two_lt_arctan (y / x)
  unfold atan2R
  split_ifs with hx hxy hxneg hy hy2
  · constructor <;> linarith
  · have hyx : y / x ≤ 0 := div_nonpos_iff.mpr (Or.inl ⟨hxy.2, hxy.1.le⟩)
    have harc : Real.arctan (y / x) ≤ 0 := by
      have hm := Real.arctan_strictMono.monotone hyx
      rwa [Real.arctan_zero] at hm
    constructor <;> linarith
  · have hyneg : y < 0 := by
      by_contra hc
      push_neg at hc
      exact hxy ⟨hxneg, hc⟩
    have hyx : 0 ≤ y / x := by
      rw [← neg_div_neg_eq]
      exact div_nonneg (by linarith) (by linarith)
    have harc : 0 ≤ Real.arctan (y / x) := by
      have hm := Real.arctan_strictMono.monotone hyx
      rwa [Real.arctan_zero] at hm
    constructor <;> linarith
  · constructor <;> linarith
  · constructor <;> linarith
  · constructor <;> linarith

lemma ieval_master (lower upper p : Vec3) (hp : inBox lower upper p) :
    ∀ f : Expr, (ieval f lower upper).nan = false →
      ∃ v, peval f p = some v ∧
        (ieval f lower upper).lo ≤ v ∧ v ≤ (ieval f lower upper).hi := by
  obtain ⟨hx1, hx2, hy1, hy2, hz1, hz2⟩ := hp
  intro f
  induction f with
  | X => exact fun _ => ⟨p.x, rfl, hx1, hx2⟩
  | Y => exact fun _ => ⟨p.y, rfl, hy1, hy2⟩
  | Z => exact fun _ => ⟨p.z, rfl, hz1, hz2⟩
  | const c => exact fun _ => ⟨c, rfl, le_refl _, le_refl _⟩
  | neg a ih =>
      intro hnan
      simp only [ieval] at hnan ⊢
      obtain ⟨va, hva, h1, h2⟩ := ih hnan
      exact ⟨-va, by simp only [peval, hva, lift1], by linarith, by linarith⟩
  | add a b iha ihb =>
      intro hnan
      simp only [ieval, Bool.or_eq_false_iff] at hnan ⊢
      obtain ⟨va, hva, ha1, ha2⟩ := iha hnan.1
      obtain ⟨vb, hvb, hb1, hb2⟩ := ihb hnan.2
      exact ⟨va + vb, by simp only [peval, hva, hvb, lift2], by linarith, by linarith⟩
  | sub a b iha ihb =>
      intro hnan
      simp only [ieval, Bool.or_eq_false_iff] at hnan ⊢
      obtain ⟨va, hva, ha1, ha2⟩ := iha hnan.1
      obtain ⟨vb, hvb, hb1, hb2⟩ := ihb hnan.2
      exact ⟨va - vb, by simp only [peval, hva, hvb, lift2], by linarith, by linarith⟩
  | mul a b iha ihb =>
      intro hnan
      simp only [ieval, Bool.or_eq_false_iff] at hnan ⊢
      obtain ⟨va, hva, ha1, ha2⟩ := iha hnan.1
      obtain ⟨vb, hvb, hb1, hb2⟩ := ihb hnan.2
      have hc := mul_mem_corners ha1 ha2 hb1 hb2
      exact ⟨va * vb, by simp only [peval, hva, hvb, lift2], hc.1, hc.2⟩
  | div a b iha ihb =>
      intro hnan
      simp only [ieval, Bool.or_eq_false_iff, decide_eq_false_iff_not] at hnan ⊢
      obtain ⟨⟨hna, hnb⟩, hstrad⟩ := hnan
      obtain ⟨va, hva, ha1, ha2⟩ := iha hna
      obtain ⟨vb, hvb, hb1, hb2⟩ := ihb hnb
      have hside : 0 < (ieval b lower upper).lo ∨ (ieval b lower upper).hi < 0 := by
        rcases not_and_or.mp hstrad with h | h
        · exact Or.inl (lt_of_not_le h)
        · exact Or.inr (lt_of_not_le h)
      have hvbne : vb ≠ 0 := by
        rcases hside with h | h
        · exact ne_of_gt (lt_of_lt_of_le h hb1)
        · exact ne_of_lt (lt_of_le_of_lt hb2 h)
      have hinv := inv_bounds hb1 hb2 hside
      have hc := mul_mem_corners ha1 ha2 hinv.1 hinv.2
      refine ⟨va / vb, ?_, ?_, ?_⟩
      · simp only [peval, hva, hvb]
        rw [if_neg hvbne]
      · rw [div_eq_mul_one_div va vb]
        exact hc.1
      · rw [div_eq_mul_one_div va vb]
        exact hc.2
  | eabs a ih =>
      intro hnan
      simp only [ieval] at hnan ⊢
      obtain ⟨va, hva, h1, h2⟩ := ih hnan
      refine ⟨|va|, by simp only [peval, hva, lift1], ?_, ?_⟩
      · split_ifs with hc1 hc2
        · exact le_trans h1 (le_abs_self _)
        · rw [abs_of_nonpos (le_trans h2 hc2)]
          linarith
        · exact abs_nonneg _
      · rcases abs_cases va with ⟨he, _⟩ | ⟨he, _⟩ <;> rw [he]
        · exact le_trans h2 (le_max_right _ _)
        · exact le_trans (by linarith) (le_max_left _ _)
  | square a ih =>
      intro hnan
      simp only [ieval] at hnan ⊢
      obtain ⟨va, hva, h1, h2⟩ := ih hnan
      refine ⟨va * va, by simp only [peval, hva, lift1], ?_, ?_⟩
      · split_ifs with hc1 hc2
        · nlinarith
        · nlinarith
        · exact mul_self_nonneg _
      · rcases le_total 0 va with hs | hs
        · exact le_trans (by nlinarith) (le_max_right _ _)
        · exact le_trans (by nlinarith) (le_max_left _ _)
  | sqrt a ih =>
      intro hnan
      simp only [ieval, Bool.or_eq_false_iff, decide_eq_false_iff_not, not_lt] at hnan ⊢
      obtain ⟨hna, hlo⟩ := hnan
      obtain ⟨va, hva, h1, h2⟩ := ih hna
      refine ⟨Real.sqrt va, ?_, Real.sqrt_le_sqrt h1, Real.sqrt_le_sqrt h2⟩
      simp only [peval, hva]
      rw [if_neg (not_lt.mpr (by linarith))]
  | exp a ih =>
      intro hnan
      simp only [ieval] at hnan ⊢
      obtain ⟨va, hva, h1, h2⟩ := ih hnan
      exact ⟨Real.exp va, by simp only [peval, hva, lift1],
        Real.exp_le_exp.mpr h1, Real.exp_le_exp.mpr h2⟩
  | log a ih =>
      intro hnan
      simp only [ieval, Bool.or_eq_false_iff, decide_eq_false_iff_not, not_le] at hnan ⊢
      obtain ⟨hna, hlo⟩ := hnan
      obtain ⟨va, hva, h1, h2⟩ := ih hna
      have hvapos : 0 < va := lt_of_lt_of_le hlo h1
      refine ⟨Real.log va, ?_, ?_, ?_⟩
      · simp only [peval, hva]
        rw [if_neg (not_le.mpr hvapos)]
      · exact (Real.log_le_log_iff hlo hvapos).mpr h1
      · exact (Real.log_le_log_iff hvapos (lt_of_lt_of_le hvapos h2)).mpr h2
  | sin a ih =>
      intro hnan
      simp only [ieval] at hnan ⊢
      obtain ⟨va, hva, _, _⟩ := ih hnan
      exact ⟨Real.sin va, by simp only [peval, hva, lift1],
        Real.neg_one_le_sin va, Real.sin_le_one va⟩
  | cos a ih =>
      intro hnan
      simp only [ieval] at hnan ⊢
      obtain ⟨va, hva, _, _⟩ := ih hnan
      exact ⟨Real.cos va, by simp only [peval, hva, lift1],
        Real.neg_one_le_cos va, Real.cos_le_one va⟩
  | tan a ih =>
      intro hnan
      simp only [ieval, Bool.or_eq_false_iff, decide_eq_false_iff_not, not_not] at hnan ⊢
      obtain ⟨hna, hrange⟩ := hnan
      obtain ⟨va, hva, h1, h2⟩ := ih hna
      have hmem : va ∈ Set.Ioo (-(Real.pi / 2)) (Real.pi / 2) :=
        ⟨by linarith [hrange.1], by linarith [hrange.2]⟩
      have hmlo : (ieval a lower upper).lo ∈ Set.Ioo (-(Real.pi / 2)) (Real.pi / 2) :=
        ⟨hrange.1, by linarith [hrange.2]⟩
      have hmhi : (ieval a lower upper).hi ∈ Set.Ioo (-(Real.pi / 2)) (Real.pi / 2) :=
        ⟨by linarith [hrange.1], hrange.2⟩
      refine ⟨Real.tan va, ?_, ?_, ?_⟩
      · simp only [peval, hva]
        rw [if_neg (ne_of_gt (Real.cos_pos_of_mem_Ioo hmem))]
      · exact Real.strictMonoOn_tan.monotoneOn hmlo hmem h1
      · exact Real.strictMonoOn_tan.monotoneOn hmem hmhi h2
  | asin a ih =>
      intro hnan
      simp only [ieval, Bool.or_eq_false_iff, decide_eq_false_iff_not, not_or, not_lt] at hnan ⊢
      obtain ⟨hna, hlo, hhi⟩ := hnan
      obtain ⟨va, hva, h1, h2⟩ := ih hna
      refine ⟨Real.arcsin va, ?_, Real.monotone_arcsin h1, Real.monotone_arcsin h2⟩
      simp only [peval, hva]
      rw [if_neg (by push_neg; exact ⟨by linarith, by linarith⟩)]
  | acos a ih =>
      intro hnan
      simp only [ieval, Bool.or_eq_false_iff, decide_eq_false_iff_not, not_or, not_lt] at hnan ⊢
      obtain ⟨hna, hlo, hhi⟩ := hnan
      obtain ⟨va, hva, h1, h2⟩ := ih hna
      refine ⟨Real.arccos va, ?_, ?_, ?_⟩
      · simp only [peval, hva]
        rw [if_neg (by push_neg; exact ⟨by linarith, by linarith⟩)]
      · rw [Real.arccos_eq_pi_div_two_sub_arcsin, Real.arccos_eq_pi_div_two_sub_arcsin]
        have hm := Real.monotone_arcsin h2
        linarith
      · rw [Real.arccos_eq_pi_div_two_sub_arcsin, Real.arccos_eq_pi_div_two_sub_arcsin]
        have hm := Real.monotone_arcsin h1
        linarith
  | atan a ih =>
      intro hnan
      simp only [ieval] at hnan ⊢
      obtain ⟨va, hva, h1, h2⟩ := ih hnan
      exact ⟨Real.arctan va, by simp only [peval, hva, lift1],
        Real.arctan_strictMono.monotone h1, Real.arctan_strictMono.monotone h2⟩
  | atan2 y x ihy ihx =>
      intro hnan
      simp only [ieval, Bool.or_eq_false_iff] at hnan ⊢
      obtain ⟨vy, hvy, _, _⟩ := ihy hnan.1
      obtain ⟨vx, hvx, _, _⟩ := ihx hnan.2
      exact ⟨atan2R vy vx, by simp only [peval, hvy, hvx, lift2],
        (atan2R_bounds vy vx).1, (atan2R_bounds vy vx).2⟩
  | pow a n ih =>
      intro hnan
      simp only [ieval] at hnan ⊢
      obtain ⟨va, hva, h1, h2⟩ := ih hnan
      refine ⟨va ^ n, by simp only [peval, hva, lift1], ?_, ?_⟩
      · rcases Nat.even_or_odd n with hev | hod
        · split_ifs with hc
          · exact hev.pow_nonneg va
          · have hside : 0 < (ieval a lower upper).lo ∨ (ieval a lower upper).hi < 0 := by
              rcases not_and_or.mp hc with h | h
              · exact absurd hev h
              · rcases not_and_or.mp h with h | h
                · exact Or.inl (lt_of_not_le h)
                · exact Or.inr (lt_of_not_le h)
            rcases hside with hpos | hneg
            · exact le_trans (min_le_left _ _) (pow_le_pow_left hpos.le h1 n)
            · have hab : |va| ≤ |(ieval a lower upper).lo| := by
                rw [abs_of_nonpos (by linarith), abs_of_nonpos (by linarith)]
                linarith
              have hstep : |(ieval a lower upper).hi| ^ n ≤ |va| ^ n := by
                apply pow_le_pow_left (abs_nonneg _)
                rw [abs_of_nonpos (by linarith), abs_of_nonpos (by linarith)]
                linarith
              rw [hev.pow_abs] at hstep
              rw [← hev.pow_abs va]
              exact le_trans (min_le_right _ _) hstep
        · rw [if_neg (fun hcon => (Nat.even_iff_not_odd.mp hcon.1) hod)]
          exact le_trans (min_le_left _ _) ((hod.strictMono_pow (R := ℝ)).monotone h1)
      · rcases Nat.even_or_odd n with hev | hod
        · have habs : |va| ≤ max (-(ieval a lower upper).lo) ((ieval a lower upper).hi) := by
            rcases abs_cases va with ⟨he, _⟩ | ⟨he, _⟩ <;> rw [he]
            · exact le_trans h2 (le_max_right _ _)
            · exact le_trans (by linarith) (le_max_left _ _)
          have hstep : |va| ^ n ≤ (max (-(ieval a lower upper).lo) ((ieval a lower upper).hi)) ^ n :=
            pow_le_pow_left (abs_nonneg _) habs n
          rw [hev.pow_abs] at hstep
          refine le_trans hstep ?_
          rcases max_cases (-(ieval a lower upper).lo) ((ieval a lower upper).hi) with
            ⟨hm, _⟩ | ⟨hm, _⟩ <;> rw [hm]
          · rw [hev.neg_pow]
            exact le_max_left _ _
          · exact le_max_right _ _
        · exact le_trans ((hod.strictMono_pow (R := ℝ)).monotone h2) (le_max_right _ _)
  | less a b iha ihb =>
      intro hnan
      simp only [ieval, Bool.or_eq_false_iff] at hnan ⊢
      obtain ⟨va, hva, ha1, ha2⟩ := iha hnan.1
      obtain ⟨vb, hvb, hb1, hb2⟩ := ihb hnan.2
      refine ⟨if va < vb then 1 else 0, by simp only [peval, hva, hvb, lift2], ?_, ?_⟩
      · by_cases hv : va < vb
        · rw [if_pos hv]
          split_ifs <;> norm_num
        · rw [if_neg hv, if_neg (fun hc => hv (by linarith))]
      · by_cases hv : va < vb
        · rw [if_pos hv, if_neg (fun hc => absurd hv (by simp only [not_lt]; linarith))]
        · rw [if_neg hv]
          split_ifs <;> norm_num
  | emin a b iha ihb =>
      intro hnan
      simp only [ieval, Bool.or_eq_false_iff] at hnan ⊢
      obtain ⟨va, hva, ha1, ha2⟩ := iha hnan.1
      obtain ⟨vb, hvb, hb1, hb2⟩ := ihb hnan.2
      exact ⟨min va vb, by simp only [peval, hva, hvb, lift2],
        min_le_min ha1 hb1, min_le_min ha2 hb2⟩
  | emax a b iha ihb =>
      intro hnan
      simp only [ieval, Bool.or_eq_false_iff] at hnan ⊢
      obtain ⟨va, hva, ha1, ha2⟩ := iha hnan.1
      obtain ⟨vb, hvb, hb1, hb2⟩ := ihb hnan.2
      exact ⟨max va vb, by simp only [peval, hva, hvb, lift2],
        max_le_max ha1 hb1, max_le_max ha2 hb2⟩

/-- C5: interval evaluation is sound over the full modelled operation
list — for every expression, every box and every point of the box where
the expression has a real (non-NaN) value, that value lies inside the
interval returned by `ieval`; a NaN-possible interval (`maybe_nan` set)
counts as full-range, exactly as specification section 7 prescribes for
consumers who ignore the flag. -/
theorem interval_eval_sound :
    ∀ (f : Expr) (lower upper p : Vec3) (v : ℝ), inBox lower upper p →
      peval f p = some v →
      (ieval f lower upper).nan = true ∨
        ((ieval f lower upper).lo ≤ v ∧ v ≤ (ieval f lower upper).hi) := by
  intro f lower upper p v hp hv
  cases hnan : (ieval f lower upper).nan with
  | true => exact Or.inl rfl
  | false =>
      obtain ⟨w, hw, hb1, hb2⟩ := ieval_master lower upper p hp f hnan
      rw [hv] at hw
      injection hw with hw
      rw [hw]
      exact Or.inr ⟨hb1, hb2⟩

/-- C5 witness: `x² + y` over the unit box at `(1/2, 1, 0)`, where the
interval is NaN-free. -/
theorem interval_eval_sound_witness :
    inBox ⟨0, 0, 0⟩ ⟨1, 1, 1⟩ ⟨1/2, 1, 0⟩ ∧
    peval (Expr.add (Expr.square Expr.X) Expr.Y) ⟨1/2, 1, 0⟩ = some (5/4) ∧
    ((ieval (Expr.add (Expr.square Expr.X) Expr.Y) ⟨0, 0, 0⟩ ⟨1, 1, 1⟩).nan = true ∨
      ((ieval (Expr.add (Expr.square Expr.X) Expr.Y) ⟨0, 0, 0⟩ ⟨1, 1, 1⟩).lo ≤ 5/4 ∧
        5/4 ≤ (ieval (Expr.add (Expr.square Expr.X) Expr.Y) ⟨0, 0, 0⟩ ⟨1, 1, 1⟩).hi)) :=
  have hbox : inBox ⟨0, 0, 0⟩ ⟨1, 1, 1⟩ ⟨1/2, 1, 0⟩ := by
    unfold inBox
    norm_num
  have hval : peval (Expr.add (Expr.square Expr.X) Expr.Y) ⟨1/2, 1, 0⟩ = some (5/4) := by
    simp only [peval, lift1, lift2]
    norm_num
  ⟨hbox, hval,
    interval_eval_sound (Expr.add (Expr.square Expr.X) Expr.Y) ⟨0, 0, 0⟩ ⟨1, 1, 1⟩
      ⟨1/2, 1, 0⟩ (5/4) hbox hval⟩

lemma pushTape_eval (lower upper p : Vec3) (hp : inBox lower upper p) :
    ∀ f : Expr, peval (pushTape lower upper f) p = peval f p := by
  intro f
  induction f with
  | X => rfl
  | Y => rfl
  | Z => rfl
  | const c => rfl
  | neg a ih => simp only [pushTape, peval, ih]
  | add a b iha ihb => simp only [pushTape, peval, iha, ihb]
  | sub a b iha ihb => simp only [pushTape, peval, iha, ihb]
  | mul a b iha ihb => simp only [pushTape, peval, iha, ihb]
  | div a b iha ihb => simp only [pushTape, peval, iha, ihb]
  | eabs a ih => simp only [pushTape, peval, ih]
  | square a ih => simp only [pushTape, peval, ih]
  | sqrt a ih => simp only [pushTape, peval, ih]
  | exp a ih => simp only [pushTape, peval, ih]
  | log a ih => simp only [pushTape, peval, ih]
  | sin a ih => simp only [pushTape, peval, ih]
  | cos a ih => simp only [pushTape, peval, ih]
  | tan a ih => simp only [pushTape, peval, ih]
  | asin a ih => simp only [pushTape, peval, ih]
  | acos a ih => simp only [pushTape, peval, ih]
  | atan a ih => simp only [pushTape, peval, ih]
  | atan2 y x ihy ihx => simp only [pushTape, peval, ihy, ihx]
  | pow a n ih => simp only [pushTape, peval, ih]
  | less a b iha ihb => simp only [pushTape, peval, iha, ihb]
  | emin a b iha ihb =>
      simp only [pushTape]
      split_ifs with hc1 hc2
      · obtain ⟨hna, hnb, hord⟩ := hc1
        obtain ⟨va, hva, _, ha2⟩ := ieval_master lower upper p hp a hna
        obtain ⟨vb, hvb, hb1, _⟩ := ieval_master lower upper p hp b hnb
        rw [iha, hva]
        simp only [peval, hva, hvb, lift2]
        rw [min_eq_left (by linarith)]
      · obtain ⟨hna, hnb, hord⟩ := hc2
        obtain ⟨va, hva, ha1, _⟩ := ieval_master lower upper p hp a hna
        obtain ⟨vb, hvb, _, hb2⟩ := ieval_master lower upper p hp b hnb
        rw [ihb, hvb]
        simp only [peval, hva, hvb, lift2]
        rw [min_eq_right (by linarith)]
      · simp only [peval, iha, ihb]
  | emax a b iha ihb =>
      simp only [pushTape]
      split_ifs with hc1 hc2
      · obtain ⟨hna, hnb, hord⟩ := hc1
        obtain ⟨va, hva, _, ha2⟩ := ieval_master lower upper p hp a hna
        obtain ⟨vb, hvb, hb1, _⟩ := ieval_master lower upper p hp b hnb
        rw [ihb, hvb]
        simp only [peval, hva, hvb, lift2]
        rw [max_eq_right (by linarith)]
      · obtain ⟨hna, hnb, hord⟩ := hc2
        obtain ⟨va, hva, ha1, _⟩ := ieval_master lower upper p hp a hna
        obtain ⟨vb, hvb, _, hb2⟩ := ieval_master lower upper p hp b hnb
        rw [iha, hva]
        simp only [peval, hva, hvb, lift2]
        rw [max_eq_left (by linarith)]
      · simp only [peval, iha, ihb]

/-- C4: the shortened tape produced for a box agrees pointwise (NaN
included) with the original tape at every point of that box, over the
full modelled operation list. -/
theorem tape_push_equiv :
    ∀ (f : Expr) (lower upper p : Vec3), inBox lower upper p →
      peval (pushTape lower upper f) p = peval f p :=
  fun f lower upper p hp => pushTape_eval lower upper p hp f

/-- C4 witness: over the unit box, `min(x, 10)` shortens to `x` and the
two tapes agree at `(1/2, 0, 0)`. -/
theorem tape_push_equiv_witness :
    inBox ⟨0, 0, 0⟩ ⟨1, 1, 1⟩ ⟨1/2, 0, 0⟩ ∧
    pushTape ⟨0, 0, 0⟩ ⟨1, 1, 1⟩ (Expr.emin Expr.X (Expr.const 10)) = Expr.X ∧
    peval (pushTape ⟨0, 0, 0⟩ ⟨1, 1, 1⟩ (Expr.emin Expr.X (Expr.const 10))) ⟨1/2, 0, 0⟩ =
      peval (Expr.emin Expr.X (Expr.const 10)) ⟨1/2, 0, 0⟩ :=
  have hbox : inBox ⟨0, 0, 0⟩ ⟨1, 1, 1⟩ ⟨1/2, 0, 0⟩ := by
    unfold inBox
    norm_num
  have hshort : pushTape ⟨0, 0, 0⟩ ⟨1, 1, 1⟩ (Expr.emin Expr.X (Expr.const 10)) = Expr.X := by
    simp only [pushTape]
    rw [if_pos ⟨rfl, rfl, by norm_num [ieval]⟩]
  ⟨hbox, hshort,
    tape_push_equiv (Expr.emin Expr.X (Expr.const 10)) ⟨0, 0, 0⟩ ⟨1, 1, 1⟩ ⟨1/2, 0, 0⟩ hbox⟩

/-- C9 counterexample: the eigenvalue cutoff is not the real number `0.1`
(the source literal is the single-precision `0.1f`). -/
theorem eigenvalue_cutoff_ne_tenth : EIGENVALUE_CUTOFF ≠ 1 / 10 := by
  unfold EIGENVALUE_CUTOFF
  norm_num

/-- C9 amended: the cutoff equals `13421773 / 2^27`, the single-precision
rounding of `0.1`; it exceeds `0.1`, by less than `2^(-28)`. -/
theorem eigenvalue_cutoff_value :
    EIGENVALUE_CUTOFF = 13421773 / 2 ^ 27 ∧
    1 / 10 < EIGENVALUE_CUTOFF ∧
    EIGENVALUE_CUTOFF - 1 / 10 < 1 / 2 ^ 28 := by
  unfold EIGENVALUE_CUTOFF
  norm_num

end Libfive
